import Mathlib

/-!
Verification of the twins-generator scenario enumeration engine
(`generator.py`): partition enumeration (Stirling numbers of the second
kind), leader/round composition, positional sharding, chunked output,
and construction-time validation.
-/

/-- A Python value, as far as the generator's `isinstance` checks can
distinguish them (`bool` is a subclass of `int` in Python). -/
inductive PyVal where
  | int (i : ℤ)
  | bool (b : Bool)
  | str (s : String)
  | none
deriving DecidableEq

/-- `isinstance(v, int)` — note Python's `bool` is an `int` subclass. -/
def PyVal.isInt : PyVal → Bool
  | .int _ => true
  | .bool _ => true
  | _ => false

/-- `isinstance(v, bool)`. -/
def PyVal.isBool : PyVal → Bool
  | .bool _ => true
  | _ => false

/-- `isinstance(v, str)`. -/
def PyVal.isStr : PyVal → Bool
  | .str _ => true
  | _ => false

/-- The integer value carried by a `PyVal` (`True == 1`, `False == 0`). -/
def PyVal.toInt : PyVal → ℤ
  | .int i => i
  | .bool b => if b then 1 else 0
  | _ => 0

/-- The string value carried by a `PyVal`. -/
def PyVal.toStr : PyVal → String
  | .str s => s
  | _ => ""

/-- The two exception classes raised by `Generator.__init__` and
`Generator.run` (`generator.py`). -/
inductive PyErr where
  | typeError
  | valueError
deriving DecidableEq

/-- The state of a constructed `Generator` instance
(`generator.py`, `__init__`, lines 101-106). -/
structure Generator where
  number_of_nodes : ℕ
  number_of_partitions : ℕ
  number_of_rounds : ℕ
  folder_path : String
  machine_index : ℕ
  number_of_machines : ℕ
deriving DecidableEq

/-- `self.f = (self.number_of_nodes - 1) // 3` (`generator.py` line 109). -/
def Generator.f (g : Generator) : ℕ := (g.number_of_nodes - 1) / 3

/-- `self.nodes = [x for x in range(self.number_of_nodes + self.f)]`
(`generator.py` line 110). -/
def Generator.nodes (g : Generator) : List ℕ :=
  List.range (g.number_of_nodes + g.f)

/-- `self.nodes[:self.f]` (`generator.py`, `target_nodes`, line 136). -/
def Generator.target_nodes (g : Generator) : List ℕ :=
  g.nodes.take g.f

/-- `f(k)//f(i)//f(k-i)` — the binomial coefficient computed by floor
division of factorials (`generator.py` line 185). -/
def pyChoose (k i : ℕ) : ℕ :=
  k.factorial / i.factorial / (k - i).factorial

/-- `sum([(-1)**i * (f(k)//f(i)//f(k-i)) * (k-i)**n for i in range(k+1)])`
(`generator.py` line 185). -/
def pySum (n k : ℕ) : ℤ :=
  ∑ i in Finset.range (k + 1),
    (-1) ^ i * (pyChoose k i : ℤ) * ((k : ℤ) - (i : ℤ)) ^ n

/-- `Generator.S(n, k)`: the closed-form alternating sum divided (Python
floor division `//`) by `k!` (`generator.py` lines 173-186). -/
def pyS (n k : ℕ) : ℤ :=
  Int.fdiv (pySum n k) (k.factorial : ℤ)

/-- The Stirling numbers of the second kind, by the standard recurrence
`S(n+1, k+1) = S(n, k) + (k+1) * S(n, k+1)` — the mathematical reference
definition against which the code's closed form is checked. -/
def stirlingRec : ℕ → ℕ → ℕ
  | 0, 0 => 1
  | 0, _ + 1 => 0
  | _ + 1, 0 => 0
  | n + 1, k + 1 => stirlingRec n k + (k + 1) * stirlingRec n (k + 1)

/-- `Generator.testcases_length`: `S(len(nodes), k) * len(target_nodes)`
raised to `number_of_rounds` (`generator.py` lines 138-148). -/
def Generator.testcases_length (g : Generator) : ℤ :=
  (pyS g.nodes.length g.number_of_partitions * (g.target_nodes.length : ℤ))
    ^ g.number_of_rounds

/-- `p[j] += [x]`: append `x` to the `j`-th block of a partition, in the
list-index sense of `k_s_n1_k[i][i // len(tmp)] += [n-1]`
(`generator.py` line 234). -/
def modBlock (x : ℕ) : ℕ → List (List ℕ) → List (List ℕ)
  | _, [] => []
  | 0, b :: bs => (b ++ [x]) :: bs
  | j + 1, b :: bs => b :: modBlock x j bs

/-- The inner `stirling2(n, k)` recursion of `Generator.make_partitions`
(`generator.py` lines 209-236): base cases `k == 1` and `k == n`;
otherwise partitions of `n-1` items into `k-1` blocks with `[n-1]`
appended as a new block, followed by `k` copies of the partitions of
`n-1` items into `k` blocks, copy `j` having `n-1` appended to block `j`. -/
def mkParts : ℕ → ℕ → List (List (List ℕ))
  | 0, _ => []
  | n + 1, k =>
    if k = 1 then [[List.range (n + 1)]]
    else if k = n + 1 then [(List.range (n + 1)).map fun x => [x]]
    else
      ((mkParts n (k - 1)).map fun p => p ++ [[n]]) ++
        (List.range k).bind fun j => (mkParts n k).map (modBlock n j)

/-- `Generator.make_partitions` (`generator.py` lines 188-238). -/
def Generator.make_partitions (g : Generator) : List (List (List ℕ)) :=
  mkParts g.nodes.length g.number_of_partitions

/-- `Generator.combine_partitions_with_leaders` (`generator.py` lines
240-261): `for partition in partitions: for leader in self.target_nodes:
yield (leader, partition)`. -/
def Generator.combine_partitions_with_leaders (g : Generator)
    (partitions : List (List (List ℕ))) : List (ℕ × List (List ℕ)) :=
  partitions.bind fun partition =>
    g.target_nodes.map fun leader => (leader, partition)

/-- `itertools.product(l, repeat=r)`: all length-`r` sequences over `l`,
first coordinate varying slowest. -/
def productRepeat (l : List α) : ℕ → List (List α)
  | 0 => [[]]
  | r + 1 => l.bind fun x => (productRepeat l r).map fun t => x :: t

/-- `Generator.combine_scenarios_with_rounds` (`generator.py` lines
263-282): `product(scenarios, repeat=self.number_of_rounds)`. -/
def Generator.combine_scenarios_with_rounds (g : Generator)
    (scenarios : List α) : List (List α) :=
  productRepeat scenarios g.number_of_rounds

/-- Every `M`-th element of `l` starting with its head: the semantics of
`itertools.islice(it, 0, None, M)` on a finite sequence. -/
def takeEvery (M : ℕ) : List α → List α
  | [] => []
  | x :: xs => x :: takeEvery M (xs.drop (M - 1))
termination_by l => l.length
decreasing_by simp only [List.length_drop, List.length_cons]; omega

/-- Modelled from the spec: `more_itertools.distribute(M, l)` (external
library, called at `generator.py` lines 313 and 400) — `tee` the input
and hand shard `j` the islice starting at offset `j` with step `M`, so
element `i` (0-indexed) lands in shard `i mod M`. -/
def distribute (M : ℕ) (l : List α) : List (List α) :=
  (List.range M).map fun j => takeEvery M (l.drop j)

/-- `more_itertools.ichunked(l, sz)` (external library, called at
`generator.py` line 294): consecutive chunks of `sz` elements, the last
chunk possibly smaller, and no chunk at all for an empty input. -/
def chunks (sz : ℕ) : List α → List (List α)
  | [] => []
  | x :: xs => (x :: xs.take (sz - 1)) :: chunks sz (xs.drop (sz - 1))
termination_by l => l.length
decreasing_by simp only [List.length_drop, List.length_cons]; omega

/-- The exit status of one worker process running `Generator._print`. -/
inductive WorkerOutcome where
  | ok
  | failed
deriving DecidableEq

/-- `multiprocessing.Process.join()` (Python standard library, called at
`generator.py` line 322): waits for the child and returns `None`
whatever the child's exit status; it never raises on a failed child. -/
def processJoin (r : WorkerOutcome) : Unit := ()

/-- The aggregate outcome of `Generator.print` (`generator.py` lines
303-322): every spawned worker is joined, the exit statuses are never
inspected, and control returns normally. -/
def Generator.printOutcome (g : Generator)
    (worker_outcomes : List WorkerOutcome) : Except PyErr Unit :=
  let _ := worker_outcomes.map processJoin
  Except.ok ()

/-- `Generator.__init__` validation and construction (`generator.py`
lines 80-119): type checks, then positivity/range checks, then the
nodes-vs-partitions check, mirroring the code's order. -/
def Generator.init (number_of_nodes number_of_partitions number_of_rounds
    folder_path machine_index number_of_machines : PyVal) :
    Except PyErr Generator :=
  if ¬(number_of_nodes.isInt && number_of_partitions.isInt &&
      number_of_rounds.isInt && folder_path.isStr &&
      machine_index.isInt && number_of_machines.isInt) = true then
    Except.error PyErr.typeError
  else if ¬(0 < number_of_nodes.toInt ∧ 0 < number_of_partitions.toInt ∧
      0 < number_of_rounds.toInt ∧ 0 < machine_index.toInt ∧
      machine_index.toInt ≤ number_of_machines.toInt) then
    Except.error PyErr.valueError
  else
    let g : Generator :=
      { number_of_nodes := number_of_nodes.toInt.toNat
        number_of_partitions := number_of_partitions.toInt.toNat
        number_of_rounds := number_of_rounds.toInt.toNat
        folder_path := folder_path.toStr
        machine_index := machine_index.toInt.toNat
        number_of_machines := number_of_machines.toInt.toNat }
    if g.nodes.length < g.number_of_partitions then
      Except.error PyErr.valueError
    else Except.ok g

/-- The parameter validation at the top of `Generator.run`
(`generator.py` lines 335-348). -/
def Generator.run_check (dryrun workers testcases_per_file : PyVal) :
    Except PyErr Unit :=
  if ¬(dryrun.isBool && workers.isInt && testcases_per_file.isInt) = true
    then Except.error PyErr.typeError
  else if ¬(0 < workers.toInt ∧ 0 < testcases_per_file.toInt) then
    Except.error PyErr.valueError
  else Except.ok ()

/-- `Generator.run` up to the enumeration pipeline (`generator.py` lines
324-409): parameter validation happens first, and only afterwards are
partitions made, combined with leaders, and combined with rounds. -/
def Generator.runModel (g : Generator)
    (dryrun workers testcases_per_file : PyVal) :
    Except PyErr (List (List (ℕ × List (List ℕ)))) :=
  match Generator.run_check dryrun workers testcases_per_file with
  | Except.error e => Except.error e
  | Except.ok _ =>
      Except.ok (g.combine_scenarios_with_rounds
        (g.combine_partitions_with_leaders g.make_partitions))

/-- The generator state after `Generator.run` returns, as far as
`folder_path` is concerned: line 403 executes
`self.folder_path = self.folder_path if not dryrun else directory`
inside the `with` block and nothing ever restores the attribute. -/
def Generator.run_state (g : Generator) (dryrun : Bool)
    (directory : String) : Generator :=
  { g with folder_path := if ¬dryrun then g.folder_path else directory }

/-- A partition compared as a set of sets of node indices. -/
def setOfSets (p : List (List ℕ)) : Finset (Finset ℕ) :=
  (p.map List.toFinset).toFinset

/-- `p` is a partition of `{0, ..., n-1}` into exactly `k` non-empty,
pairwise-disjoint blocks. -/
def isValidPartition (n k : ℕ) (p : List (List ℕ)) : Prop :=
  p.length = k ∧ (∀ b ∈ p, b ≠ []) ∧
  p.Pairwise (fun b c => ∀ x, x ∈ b → x ∉ c) ∧
  (∀ x, (∃ b ∈ p, x ∈ b) ↔ x < n)

/-- The alternating sum `Σ_{i=0}^{k} (-1)^i C(k,i) (k-i)^n` with the
mathematical binomial coefficient — the bridge between the code's
closed form and the Stirling recurrence. -/
def altSum (n k : ℕ) : ℤ :=
  ∑ i in Finset.range (k + 1),
    (-1) ^ i * (Nat.choose k i : ℤ) * ((k : ℤ) - (i : ℤ)) ^ n

lemma target_nodes_length (g : Generator) : g.target_nodes.length = g.f := by
  simp only [Generator.target_nodes, Generator.nodes, List.length_take,
    List.length_range]
  omega

lemma bind_pair_length (P : List α) (T : List ℕ) :
    (P.bind fun p => T.map fun l => (l, p)).length = P.length * T.length := by
  induction P with
  | nil => simp
  | cons p P ih => simp [ih]; ring

lemma bind_pair_get (P : List α) (T : List ℕ) (i j : ℕ)
    (hi : i < P.length) (hj : j < T.length) :
    (P.bind fun p => T.map fun l => (l, p)).get? (i * T.length + j) =
      some (T.get ⟨j, hj⟩, P.get ⟨i, hi⟩) := by
  induction P generalizing i with
  | nil => simp at hi
  | cons p P ih =>
    have hstep : ((p :: P).bind fun q => T.map fun l => (l, q)) =
        (T.map fun l => (l, p)) ++ (P.bind fun q => T.map fun l => (l, q)) :=
      rfl
    cases i with
    | zero =>
      rw [hstep]
      rw [List.get?_append (by simpa using hj)]
      simp [List.get?_map, List.get?_eq_get hj]
    | succ i =>
      rw [hstep]
      have hlen : (T.map fun l => (l, p)).length = T.length := by simp
      rw [List.get?_append_right (by simp; nlinarith [Nat.succ_mul i T.length])]
      have hi' : i < P.length := by simpa using hi
      have := ih i hi'
      rw [hlen]
      have harith : (i + 1) * T.length + j - T.length = i * T.length + j := by
        rw [Nat.succ_mul]; omega
      rw [harith, this]
      congr 1

lemma bind_pair_fst (P : List α) (T : List ℕ) (s : ℕ × α)
    (hs : s ∈ P.bind fun p => T.map fun l => (l, p)) : s.1 ∈ T := by
  simp only [List.mem_bind, List.mem_map] at hs
  obtain ⟨p, _, l, hl, rfl⟩ := hs
  exact hl

lemma chunks_nil (sz : ℕ) : chunks sz ([] : List α) = [] := by
  rw [chunks]

lemma chunks_cons (sz : ℕ) (x : α) (xs : List α) :
    chunks sz (x :: xs) =
      (x :: xs.take (sz - 1)) :: chunks sz (xs.drop (sz - 1)) := by
  rw [chunks]

lemma chunks_of_length_le (sz : ℕ) (x : α) (xs : List α)
    (h : xs.length + 1 ≤ sz) : chunks sz (x :: xs) = [x :: xs] := by
  rw [chunks_cons, List.take_of_length_le (by omega),
    List.drop_eq_nil_of_le (by omega), chunks_nil]

lemma chunks_exact_aux (sz : ℕ) (hsz : 1 ≤ sz) :
    ∀ N (l : List α), l.length ≤ N → l.length % sz = 0 →
      ∀ c ∈ chunks sz l, c.length = sz := by
  intro N
  induction N with
  | zero =>
    intro l hl _ c hc
    have hnil : l = [] := List.eq_nil_of_length_eq_zero (by omega)
    subst hnil
    simp [chunks_nil] at hc
  | succ N ih =>
    intro l hl hmod c hc
    match l, hl, hmod, hc with
    | [], _, _, hc => simp [chunks_nil] at hc
    | x :: xs, hl, hmod, hc =>
      rw [List.length_cons] at hmod hl
      have hge : sz ≤ xs.length + 1 := by
        by_contra hlt
        push_neg at hlt
        have heq := Nat.mod_eq_of_lt hlt
        rw [heq] at hmod
        omega
      rw [chunks_cons] at hc
      rcases List.mem_cons.mp hc with rfl | hc'
      · simp only [List.length_cons, List.length_take]
        omega
      · obtain ⟨m, hm⟩ : sz ∣ xs.length + 1 :=
          Nat.dvd_of_mod_eq_zero hmod
        match m, hm with
        | 0, hm => omega
        | m' + 1, hm =>
          rw [Nat.mul_succ] at hm
          refine ih (xs.drop (sz - 1)) ?_ ?_ c hc'
          · simp only [List.length_drop]; omega
          · simp only [List.length_drop]
            have h2 : xs.length - (sz - 1) = sz * m' := by omega
            rw [h2]
            exact Nat.mul_mod_right sz m'

/-- C5: for any collection of partitions `P`,
`combine_partitions_with_leaders` yields exactly `|P| * f` scenarios,
in partition-major, leader-minor order (the scenario at position
`i * f + j` pairs target node `j` with partition `i`), and every
yielded scenario's leader is a target node. -/
theorem combine_leaders_spec (g : Generator) (P : List (List (List ℕ))) :
    (g.combine_partitions_with_leaders P).length = P.length * g.f ∧
    (∀ i j (hi : i < P.length) (hj : j < g.target_nodes.length),
      (g.combine_partitions_with_leaders P).get?
          (i * g.target_nodes.length + j) =
        some (g.target_nodes.get ⟨j, hj⟩, P.get ⟨i, hi⟩)) ∧
    ∀ s ∈ g.combine_partitions_with_leaders P, s.1 ∈ g.target_nodes := by
  refine ⟨?_, ?_, ?_⟩
  · rw [Generator.combine_partitions_with_leaders, bind_pair_length,
      target_nodes_length]
  · exact fun i j hi hj => bind_pair_get P g.target_nodes i j hi hj
  · exact fun s hs => bind_pair_fst P g.target_nodes s hs

/-- C5 witness: the specification instantiated on a concrete generator
(4 nodes, 2 partitions, 3 rounds) and two concrete partitions. -/
theorem combine_leaders_spec_witness :
    ((Generator.mk 4 2 3 "./" 1 1).combine_partitions_with_leaders
        [[[0, 1], [2]], [[0], [1, 2]]]).length =
      ([[[0, 1], [2]], [[0], [1, 2]]] : List (List (List ℕ))).length *
        (Generator.mk 4 2 3 "./" 1 1).f ∧
    (∀ i j (hi : i < ([[[0, 1], [2]], [[0], [1, 2]]] :
          List (List (List ℕ))).length)
        (hj : j < (Generator.mk 4 2 3 "./" 1 1).target_nodes.length),
      ((Generator.mk 4 2 3 "./" 1 1).combine_partitions_with_leaders
          [[[0, 1], [2]], [[0], [1, 2]]]).get?
          (i * (Generator.mk 4 2 3 "./" 1 1).target_nodes.length + j) =
        some ((Generator.mk 4 2 3 "./" 1 1).target_nodes.get ⟨j, hj⟩,
          ([[[0, 1], [2]], [[0], [1, 2]]] :
            List (List (List ℕ))).get ⟨i, hi⟩)) ∧
    ∀ s ∈ (Generator.mk 4 2 3 "./" 1 1).combine_partitions_with_leaders
        [[[0, 1], [2]], [[0], [1, 2]]],
      s.1 ∈ (Generator.mk 4 2 3 "./" 1 1).target_nodes :=
  combine_leaders_spec (Generator.mk 4 2 3 "./" 1 1)
    [[[0, 1], [2]], [[0], [1, 2]]]

/-- C6 counterexample: a worker fails, yet `Generator.print` reports
success — `Process.join` ignores the child's exit status and the code
never inspects exit codes, so the claim that a run is not reported
successful when a worker failed is false. -/
theorem print_outcome_counterexample :
    (Generator.mk 4 2 3 "./" 1 1).printOutcome [WorkerOutcome.failed] =
      Except.ok () := rfl

/-- C6 (amended): a single worker's failure does not halt the sibling
workers (every spawned worker is joined regardless of the others'
outcomes), but the failure is never surfaced: `Generator.print` — and
hence `run` — reports success whatever the workers' exit statuses. -/
theorem print_outcome_ignores_failures (g : Generator)
    (rs : List WorkerOutcome) :
    (rs.map processJoin).length = rs.length ∧
      g.printOutcome rs = Except.ok () :=
  ⟨by simp, rfl⟩

/-- C8 counterexample: an empty shard with `testcases_per_file = 1 >`
shard length produces zero chunks, not exactly one. -/
theorem chunks_empty_shard_counterexample :
    ([] : List ℕ).length < 1 ∧ (chunks 1 ([] : List ℕ)).length ≠ 1 := by
  refine ⟨by decide, ?_⟩
  rw [chunks_nil]
  decide

/-- C8 (amended): for every non-empty shard, a chunk size at least the
shard's length produces exactly one chunk (the whole shard); and when
the shard's length is an exact multiple of the chunk size, every chunk
has exactly `testcases_per_file` elements — no undersized trailing
chunk.  An empty shard produces zero chunks. -/
theorem chunks_boundary (sz : ℕ) (l : List ℕ) (hsz : 1 ≤ sz) :
    (l ≠ [] → l.length ≤ sz → chunks sz l = [l]) ∧
    (l.length % sz = 0 → ∀ c ∈ chunks sz l, c.length = sz) := by
  constructor
  · intro hne hlen
    match l, hne with
    | x :: xs, _ =>
      exact chunks_of_length_le sz x xs (by simpa using hlen)
  · intro hmod
    exact chunks_exact_aux sz hsz l.length l le_rfl hmod

/-- C8 witness: the amended claim instantiated at chunk size 2 on a
shard of four testcase stand-ins. -/
theorem chunks_boundary_witness :
    (([1, 2, 3, 4] : List ℕ) ≠ [] →
      ([1, 2, 3, 4] : List ℕ).length ≤ 2 →
      chunks 2 ([1, 2, 3, 4] : List ℕ) = [[1, 2, 3, 4]]) ∧
    (([1, 2, 3, 4] : List ℕ).length % 2 = 0 →
      ∀ c ∈ chunks 2 ([1, 2, 3, 4] : List ℕ), c.length = 2) :=
  chunks_boundary 2 [1, 2, 3, 4] (by decide)

/-- C10: running with `dryrun = True` reassigns `folder_path` to the
ephemeral temporary directory and never restores it, so the instance's
configuration is mutated: after the run the generator targets the
temporary directory, not the originally configured one. -/
theorem run_state_mutates (g : Generator) (d : String)
    (h : g.folder_path ≠ d) :
    (g.run_state true d).folder_path = d ∧
      (g.run_state true d).folder_path ≠ g.folder_path := by
  refine ⟨rfl, ?_⟩
  simpa [Generator.run_state] using fun hh => h hh.symm

/-- C10 witness: a generator configured with `folder_path = "./"` run
in dry-run mode against temporary directory `"/tmp/x"` ends up with
`folder_path = "/tmp/x"`. -/
theorem run_state_mutates_witness :
    ((Generator.mk 4 2 3 "./" 1 1).run_state true "/tmp/x").folder_path =
      "/tmp/x" ∧
    ((Generator.mk 4 2 3 "./" 1 1).run_state true "/tmp/x").folder_path ≠
      (Generator.mk 4 2 3 "./" 1 1).folder_path :=
  run_state_mutates (Generator.mk 4 2 3 "./" 1 1) "/tmp/x" (by decide)

lemma takeEvery_nil (M : ℕ) : takeEvery M ([] : List α) = [] := by
  rw [takeEvery]

lemma takeEvery_cons (M : ℕ) (x : α) (xs : List α) :
    takeEvery M (x :: xs) = x :: takeEvery M (xs.drop (M - 1)) := by
  rw [takeEvery]

lemma takeEvery_getElem?_aux (M : ℕ) (hM : 1 ≤ M) :
    ∀ N (l : List α), l.length ≤ N → ∀ r, (takeEvery M l)[r]? = l[r * M]? := by
  intro N
  induction N with
  | zero =>
    intro l hl r
    have hnil : l = [] := List.eq_nil_of_length_eq_zero (by omega)
    subst hnil
    simp [takeEvery_nil]
  | succ N ih =>
    intro l hl r
    match l with
    | [] => simp [takeEvery_nil]
    | x :: xs =>
      rw [takeEvery_cons]
      match r with
      | 0 => simp
      | r + 1 =>
        have h1 : (x :: takeEvery M (xs.drop (M - 1)))[r + 1]? =
            (takeEvery M (xs.drop (M - 1)))[r]? := by simp
        rw [h1, ih (xs.drop (M - 1))
          (by simp only [List.length_drop]; simp at hl; omega) r,
          List.getElem?_drop]
        have hidx : (r + 1) * M = (M - 1 + r * M) + 1 := by
          calc (r + 1) * M = r * M + M := Nat.succ_mul r M
            _ = r * M + (M - 1 + 1) := by rw [Nat.sub_add_cancel hM]
            _ = (M - 1 + r * M) + 1 := by ring
        rw [hidx, List.getElem?_cons_succ]

lemma takeEvery_getElem? (M : ℕ) (hM : 1 ≤ M) (l : List α) (r : ℕ) :
    (takeEvery M l)[r]? = l[r * M]? :=
  takeEvery_getElem?_aux M hM l.length l le_rfl r

lemma takeEvery_length_aux (M : ℕ) (hM : 1 ≤ M) :
    ∀ N (l : List α), l.length ≤ N →
      (takeEvery M l).length = (l.length + M - 1) / M := by
  intro N
  induction N with
  | zero =>
    intro l hl
    have hnil : l = [] := List.eq_nil_of_length_eq_zero (by omega)
    subst hnil
    simp only [takeEvery_nil, List.length_nil]
    rw [Nat.div_eq_of_lt (by omega)]
  | succ N ih =>
    intro l hl
    match l with
    | [] =>
      simp only [takeEvery_nil, List.length_nil]
      rw [Nat.div_eq_of_lt (by omega)]
    | x :: xs =>
      rw [takeEvery_cons, List.length_cons,
        ih (xs.drop (M - 1)) (by simp only [List.length_drop]; simp at hl; omega),
        List.length_drop]
      simp only [List.length_cons]
      rcases Nat.lt_or_ge xs.length (M - 1) with hc | hc
      · have h1 : xs.length - (M - 1) = 0 := by omega
        rw [h1, Nat.div_eq_of_lt (by omega : 0 + M - 1 < M)]
        have h2 : xs.length + 1 + M - 1 = xs.length + M := by omega
        rw [h2, Nat.add_div_right _ (by omega),
          Nat.div_eq_of_lt (by omega : xs.length < M)]
      · have h1 : xs.length - (M - 1) + M - 1 = xs.length := by omega
        have h2 : xs.length + 1 + M - 1 = xs.length + M := by omega
        rw [h1, h2, Nat.add_div_right _ (by omega)]

lemma takeEvery_length (M : ℕ) (hM : 1 ≤ M) (l : List α) :
    (takeEvery M l).length = (l.length + M - 1) / M :=
  takeEvery_length_aux M hM l.length l le_rfl

lemma takeEvery_drop_step (M : ℕ) (hM : 1 ≤ M) (l : List α) (j : ℕ) :
    takeEvery M (l.drop j) = l[j]?.toList ++ takeEvery M (l.drop (j + M)) := by
  cases hlt : l.drop j with
  | nil =>
    have hlen : l.length ≤ j := by
      have := congrArg List.length hlt
      simp only [List.length_drop, List.length_nil] at this
      omega
    rw [List.getElem?_eq_none hlen,
      List.drop_eq_nil_of_le (by omega : l.length ≤ j + M), takeEvery_nil]
    rfl
  | cons x xs =>
    rw [takeEvery_cons]
    have hx : l[j]? = some x := by
      rw [← List.head?_drop, hlt]
      rfl
    have h1 : xs = l.drop (j + 1) := by
      have h2 := congrArg (List.drop 1) hlt
      rw [List.drop_drop] at h2
      simpa using h2.symm
    have hxs : xs.drop (M - 1) = l.drop (j + M) := by
      rw [h1, List.drop_drop]
      congr 1
      omega
    rw [hx, hxs]
    rfl

lemma sum_getElem?_toList (l : List α) (M : ℕ) :
    (∑ j in Finset.range M, (l[j]?.toList : Multiset α)) =
      (l.take M : Multiset α) := by
  induction M with
  | zero => simp
  | succ M ih =>
    rw [Finset.sum_range_succ, ih, List.take_succ, Multiset.coe_add]

lemma distribute_multiset_aux (M : ℕ) (hM : 1 ≤ M) :
    ∀ N (l : List α), l.length ≤ N →
      (∑ j in Finset.range M, ((takeEvery M (l.drop j) : List α) : Multiset α))
        = (l : Multiset α) := by
  intro N
  induction N with
  | zero =>
    intro l hl
    have hnil : l = [] := List.eq_nil_of_length_eq_zero (by omega)
    subst hnil
    simp [takeEvery_nil]
  | succ N ih =>
    intro l hl
    match l with
    | [] => simp [takeEvery_nil]
    | x :: xs =>
      have hstep : ∀ j ∈ Finset.range M,
          ((takeEvery M ((x :: xs).drop j) : List α) : Multiset α) =
            (((x :: xs)[j]?.toList : List α) : Multiset α) +
              ((takeEvery M (((x :: xs).drop M).drop j) : List α) :
                Multiset α) := by
        intro j _
        rw [takeEvery_drop_step M hM _ j, Multiset.coe_add, List.drop_drop,
          Nat.add_comm j M]
      rw [Finset.sum_congr rfl hstep, Finset.sum_add_distrib,
        sum_getElem?_toList,
        ih ((x :: xs).drop M)
          (by simp only [List.length_drop]; simp at hl ⊢; omega)]
      conv_rhs => rw [← List.take_append_drop M (x :: xs)]
      rw [Multiset.coe_add]

lemma shard_size_cases (M j : ℕ) (h0 : 0 < M) (hj : j < M) (L : ℕ) :
    (L - j + M - 1) / M = L / M ∨
      (L - j + M - 1) / M = (L + M - 1) / M := by
  obtain ⟨q, r, hL, hr⟩ : ∃ q r, M * q + r = L ∧ r < M :=
    ⟨L / M, L % M, Nat.div_add_mod L M, Nat.mod_lt _ h0⟩
  have hq1 : ∀ s, s < M → (M * q + s) / M = q := by
    intro s hs
    rw [Nat.mul_add_div h0, Nat.div_eq_of_lt hs, Nat.add_zero]
  have hq2 : ∀ s, s < M → (M * q + M + s) / M = q + 1 := by
    intro s hs
    have hx : M * q + M + s = M * (q + 1) + s := by ring
    rw [hx, Nat.mul_add_div h0, Nat.div_eq_of_lt hs, Nat.add_zero]
  obtain ⟨P, hP⟩ : ∃ P, M * q = P := ⟨_, rfl⟩
  rw [hP] at hL hq1 hq2
  subst hL
  have hLdiv : (P + r) / M = q := by
    have h3 := hq1 r hr
    simpa using h3
  rcases Nat.lt_or_ge j r with hjr | hjr
  · right
    have hceil : (P + r + M - 1) / M = q + 1 := by
      have h3 : P + r + M - 1 = P + M + (r - 1) := by omega
      rw [h3]
      exact hq2 (r - 1) (by omega)
    have hnum : P + r - j + M - 1 = P + M + (r - j - 1) := by omega
    rw [hnum, hceil, hq2 (r - j - 1) (by omega)]
  · left
    rw [hLdiv]
    rcases Nat.lt_or_ge (P + r) j with hPj | hPj
    · have hnum : P + r - j + M - 1 = M - 1 := by omega
      rw [hnum, Nat.div_eq_of_lt (by omega)]
      have hq0 : (P + r) / M = 0 := Nat.div_eq_of_lt (by omega)
      rw [hq0] at hLdiv
      exact hLdiv
    · have hnum : P + r - j + M - 1 = P + (r + M - 1 - j) := by omega
      rw [hnum, hq1 (r + M - 1 - j) (by omega)]

/-- C2: with `M ≥ 1` shards, `distribute` (the sharding used for both
machines and workers) produces `M` shards, shard `j` being every `M`-th
element starting at offset `j`; element `i` of the input is found in
shard `i % M` at position `i / M` (so shards are pairwise disjoint by
position); the multiset union of the shards is exactly the input; every
shard has either `⌊L/M⌋` or `⌈L/M⌉` elements; and shards beyond the
input length are empty (not an error). -/
theorem distribute_spec (M : ℕ) (hM : 1 ≤ M) (l : List ℕ) :
    (distribute M l).length = M ∧
    (∀ j, j < M → (distribute M l)[j]? = some (takeEvery M (l.drop j))) ∧
    (∀ j r, (takeEvery M (l.drop j))[r]? = l[j + r * M]?) ∧
    (∀ i, i < l.length → (takeEvery M (l.drop (i % M)))[i / M]? = l[i]?) ∧
    ((∑ j in Finset.range M,
        ((takeEvery M (l.drop j) : List ℕ) : Multiset ℕ)) =
      (l : Multiset ℕ)) ∧
    (∀ j, j < M →
      (takeEvery M (l.drop j)).length = l.length / M ∨
        (takeEvery M (l.drop j)).length = (l.length + M - 1) / M) ∧
    (∀ j, l.length ≤ j → takeEvery M (l.drop j) = []) := by
  refine ⟨by simp [distribute], ?_, ?_, ?_, ?_, ?_, ?_⟩
  · intro j hj
    simp [distribute, List.getElem?_map, List.getElem?_range hj]
  · intro j r
    rw [takeEvery_getElem? M hM, List.getElem?_drop]
  · intro i _
    rw [takeEvery_getElem? M hM, List.getElem?_drop, Nat.mod_add_div' i M]
  · exact distribute_multiset_aux M hM l.length l le_rfl
  · intro j hj
    rw [takeEvery_length M hM, List.length_drop]
    exact shard_size_cases M j (by omega) hj l.length
  · intro j hjl
    rw [List.drop_eq_nil_of_le hjl, takeEvery_nil]

/-- C2 witness: the sharding contract instantiated at `M = 2` on the
three-element sequence `[5, 6, 7]`. -/
theorem distribute_spec_witness :
    (distribute 2 ([5, 6, 7] : List ℕ)).length = 2 ∧
    (∀ j, j < 2 → (distribute 2 ([5, 6, 7] : List ℕ))[j]? =
      some (takeEvery 2 (([5, 6, 7] : List ℕ).drop j))) ∧
    (∀ j r, (takeEvery 2 (([5, 6, 7] : List ℕ).drop j))[r]? =
      ([5, 6, 7] : List ℕ)[j + r * 2]?) ∧
    (∀ i, i < ([5, 6, 7] : List ℕ).length →
      (takeEvery 2 (([5, 6, 7] : List ℕ).drop (i % 2)))[i / 2]? =
        ([5, 6, 7] : List ℕ)[i]?) ∧
    ((∑ j in Finset.range 2,
        ((takeEvery 2 (([5, 6, 7] : List ℕ).drop j) : List ℕ) :
          Multiset ℕ)) = (([5, 6, 7] : List ℕ) : Multiset ℕ)) ∧
    (∀ j, j < 2 →
      (takeEvery 2 (([5, 6, 7] : List ℕ).drop j)).length =
          ([5, 6, 7] : List ℕ).length / 2 ∨
        (takeEvery 2 (([5, 6, 7] : List ℕ).drop j)).length =
          (([5, 6, 7] : List ℕ).length + 2 - 1) / 2) ∧
    (∀ j, ([5, 6, 7] : List ℕ).length ≤ j →
      takeEvery 2 (([5, 6, 7] : List ℕ).drop j) = []) :=
  distribute_spec 2 (by decide) [5, 6, 7]

lemma altSum_succ_succ (n k : ℕ) :
    altSum (n + 1) (k + 1) =
      (k + 1 : ℤ) * ∑ i in Finset.range (k + 2),
        (-1) ^ i * (Nat.choose k i : ℤ) * ((k : ℤ) + 1 - i) ^ n := by
  unfold altSum
  rw [Finset.mul_sum]
  refine Finset.sum_congr rfl fun i hi => ?_
  have hik : i ≤ k + 1 := by
    simp only [Finset.mem_range] at hi
    omega
  have hnat := Nat.choose_mul_succ_eq k i
  have h2 : ((k.choose i * (k + 1) : ℕ) : ℤ) =
      (((k + 1).choose i * (k + 1 - i) : ℕ) : ℤ) :=
    congrArg (Nat.cast : ℕ → ℤ) hnat
  push_cast [Nat.cast_sub hik] at h2
  have hid : (((k + 1 : ℕ).choose i : ℤ)) * ((k : ℤ) + 1 - i) =
      ((k : ℤ) + 1) * (Nat.choose k i : ℤ) := by
    rw [← h2]
    ring
  have hc : (((k + 1 : ℕ) : ℤ)) = (k : ℤ) + 1 := by push_cast; ring
  calc (-1 : ℤ) ^ i * ((k + 1 : ℕ).choose i : ℤ) *
        (((k + 1 : ℕ) : ℤ) - i) ^ (n + 1)
      = (-1 : ℤ) ^ i * (((k + 1 : ℕ).choose i : ℤ) * ((k : ℤ) + 1 - i)) *
          ((k : ℤ) + 1 - i) ^ n := by
        rw [hc]; ring
    _ = (-1 : ℤ) ^ i * (((k : ℤ) + 1) * (Nat.choose k i : ℤ)) *
          ((k : ℤ) + 1 - i) ^ n := by rw [hid]
    _ = ((k : ℤ) + 1) *
          ((-1) ^ i * (Nat.choose k i : ℤ) * ((k : ℤ) + 1 - i) ^ n) := by
        ring

lemma sum_choose_split (n k : ℕ) :
    ∑ i in Finset.range (k + 2),
        (-1 : ℤ) ^ i * (Nat.choose k i : ℤ) * ((k : ℤ) + 1 - i) ^ n =
      altSum n k + altSum n (k + 1) := by
  have hBdef : altSum n (k + 1) =
      ∑ i in Finset.range (k + 2),
        (-1 : ℤ) ^ i * ((k + 1).choose i : ℤ) * ((k : ℤ) + 1 - i) ^ n := by
    unfold altSum
    refine Finset.sum_congr rfl fun i _ => ?_
    push_cast
    ring
  have h1 := Finset.sum_range_succ'
    (fun i => (-1 : ℤ) ^ i * ((k + 1).choose i : ℤ) * ((k : ℤ) + 1 - i) ^ n)
    (k + 1)
  have h2 := Finset.sum_range_succ'
    (fun i => (-1 : ℤ) ^ i * (Nat.choose k i : ℤ) * ((k : ℤ) + 1 - i) ^ n)
    (k + 1)
  have hstepG : ∀ j ∈ Finset.range (k + 1),
      (-1 : ℤ) ^ (j + 1) * ((k + 1).choose (j + 1) : ℤ) *
          ((k : ℤ) + 1 - (j + 1 : ℕ)) ^ n =
        -((-1) ^ j * (k.choose j : ℤ) * ((k : ℤ) - j) ^ n) -
          (-1) ^ j * (k.choose (j + 1) : ℤ) * ((k : ℤ) - j) ^ n := by
    intro j _
    rw [Nat.choose_succ_succ]
    push_cast
    ring
  have hstepF : ∀ j ∈ Finset.range (k + 1),
      (-1 : ℤ) ^ (j + 1) * (k.choose (j + 1) : ℤ) *
          ((k : ℤ) + 1 - (j + 1 : ℕ)) ^ n =
        -((-1) ^ j * (k.choose (j + 1) : ℤ) * ((k : ℤ) - j) ^ n) := by
    intro j _
    push_cast
    ring
  rw [hBdef, h1, h2, Finset.sum_congr rfl hstepG, Finset.sum_congr rfl hstepF]
  rw [Finset.sum_sub_distrib]
  simp only [Finset.sum_neg_distrib]
  unfold altSum
  simp only [Nat.cast_zero, Nat.choose_zero_right, Nat.cast_one]
  ring

lemma altSum_eq_factorial_mul (n : ℕ) : ∀ k,
    altSum n k = (k.factorial : ℤ) * (stirlingRec n k : ℤ) := by
  induction n with
  | zero =>
    intro k
    match k with
    | 0 => simp [altSum, stirlingRec]
    | k + 1 =>
      have hform : altSum 0 (k + 1) =
          ∑ i in Finset.range (k + 1 + 1),
            (-1 : ℤ) ^ i * ((k + 1).choose i : ℤ) := by
        unfold altSum
        refine Finset.sum_congr rfl fun i _ => ?_
        rw [pow_zero, mul_one]
      rw [hform, Int.alternating_sum_range_choose]
      simp [stirlingRec]
  | succ n ih =>
    intro k
    match k with
    | 0 => simp [altSum, stirlingRec]
    | k + 1 =>
      rw [altSum_succ_succ n k, sum_choose_split n k, ih k, ih (k + 1)]
      have hrec : stirlingRec (n + 1) (k + 1) =
          stirlingRec n k + (k + 1) * stirlingRec n (k + 1) := rfl
      rw [hrec]
      push_cast [Nat.factorial_succ]
      ring

lemma pyChoose_eq_choose (k i : ℕ) (h : i ≤ k) : pyChoose k i = k.choose i := by
  have key := Nat.choose_mul_factorial_mul_factorial h
  rw [pyChoose, ← key]
  have h1 : k.choose i * i.factorial * (k - i).factorial =
      k.choose i * (k - i).factorial * i.factorial := by ring
  rw [h1, Nat.mul_div_cancel _ (Nat.factorial_pos i),
    Nat.mul_div_cancel _ (Nat.factorial_pos (k - i))]

lemma pySum_eq_altSum (n k : ℕ) : pySum n k = altSum n k := by
  unfold pySum altSum
  refine Finset.sum_congr rfl fun i hi => ?_
  rw [pyChoose_eq_choose k i (by simp only [Finset.mem_range] at hi; omega)]

lemma pyS_eq_stirlingRec (n k : ℕ) : pyS n k = (stirlingRec n k : ℤ) := by
  rw [pyS, pySum_eq_altSum, altSum_eq_factorial_mul]
  exact Int.mul_fdiv_cancel_left _
    (by exact_mod_cast (Nat.factorial_pos k).ne.symm)

/-- C4: for `n ≥ k ≥ 1`, the code's closed-form alternating sum
`S(n,k) = (1/k!) Σ_{i=0}^{k} (-1)^i C(k,i) (k-i)^n` — with the binomial
coefficient computed by floor division of factorials and the final
division a Python floor division — returns exactly the Stirling number
of the second kind as defined by the standard recurrence, as an exact
integer. -/
theorem pyS_spec (n k : ℕ) (hk : 1 ≤ k) (hkn : k ≤ n) :
    pyS n k = (stirlingRec n k : ℤ) :=
  pyS_eq_stirlingRec n k

/-- C4 witness: `S(5, 2) = stirling2(5, 2) = 15`. -/
theorem pyS_spec_witness :
    1 ≤ 2 ∧ 2 ≤ 5 ∧ pyS 5 2 = (stirlingRec 5 2 : ℤ) :=
  ⟨by decide, by decide, pyS_spec 5 2 (by decide) (by decide)⟩

lemma stirlingRec_one : ∀ n, stirlingRec (n + 1) 1 = 1 := by
  intro n
  induction n with
  | zero => rfl
  | succ n ih =>
    have h : stirlingRec (n + 2) 1 = stirlingRec (n + 1) 0 +
        1 * stirlingRec (n + 1) 1 := rfl
    rw [h, ih]
    rfl

lemma stirlingRec_eq_zero_of_lt : ∀ n k, n < k → stirlingRec n k = 0 := by
  intro n
  induction n with
  | zero =>
    intro k hk
    match k, hk with
    | k + 1, _ => rfl
  | succ n ih =>
    intro k hk
    match k, hk with
    | k + 1, hk =>
      have h : stirlingRec (n + 1) (k + 1) = stirlingRec n k +
          (k + 1) * stirlingRec n (k + 1) := rfl
      rw [h, ih k (by omega), ih (k + 1) (by omega)]
      ring

lemma stirlingRec_self : ∀ n, stirlingRec n n = 1 := by
  intro n
  induction n with
  | zero => rfl
  | succ n ih =>
    have h : stirlingRec (n + 1) (n + 1) = stirlingRec n n +
        (n + 1) * stirlingRec n (n + 1) := rfl
    rw [h, ih, stirlingRec_eq_zero_of_lt n (n + 1) (by omega)]
    ring

lemma length_bind_const (L : List β) (F : β → List γ) (c : ℕ)
    (h : ∀ b ∈ L, (F b).length = c) : (L.bind F).length = L.length * c := by
  induction L with
  | nil => simp
  | cons b L ih =>
    have hstep : ((b :: L).bind F) = F b ++ L.bind F := rfl
    rw [hstep, List.length_append, h b (by simp),
      ih fun b hb => h b (by simp [hb]), List.length_cons]
    ring

lemma mkParts_length : ∀ n k, 1 ≤ k → k ≤ n →
    (mkParts n k).length = stirlingRec n k := by
  intro n
  induction n with
  | zero => intro k hk hkn; omega
  | succ n ih =>
    intro k hk hkn
    simp only [mkParts]
    by_cases h1 : k = 1
    · subst h1
      rw [if_pos rfl, stirlingRec_one n]
      rfl
    · rw [if_neg h1]
      by_cases h2 : k = n + 1
      · subst h2
        rw [if_pos rfl, stirlingRec_self]
        rfl
      · rw [if_neg h2]
        have hk2 : 2 ≤ k := by omega
        obtain ⟨k', rfl⟩ : ∃ k', k = k' + 1 := ⟨k - 1, by omega⟩
        rw [List.length_append, List.length_map]
        rw [length_bind_const (List.range (k' + 1))
          (fun j => (mkParts n (k' + 1)).map (modBlock n j))
          ((mkParts n (k' + 1)).length) (fun b _ => List.length_map _ _)]
        rw [List.length_range, Nat.add_sub_cancel]
        rw [ih k' (by omega) (by omega), ih (k' + 1) (by omega) (by omega)]
        rfl

lemma productRepeat_length (l : List α) :
    ∀ r, (productRepeat l r).length = l.length ^ r := by
  intro r
  induction r with
  | zero => rfl
  | succ r ih =>
    have hstep : productRepeat l (r + 1) =
        l.bind fun x => (productRepeat l r).map fun t => x :: t := rfl
    rw [hstep, length_bind_const l _ ((productRepeat l r).length)
      (fun b _ => List.length_map _ _), ih, pow_succ]
    ring

lemma scenarios_length (g : Generator) (hk : 1 ≤ g.number_of_partitions)
    (hkn : g.number_of_partitions ≤ g.nodes.length) :
    (g.combine_partitions_with_leaders g.make_partitions).length =
      stirlingRec g.nodes.length g.number_of_partitions *
        g.target_nodes.length := by
  rw [Generator.combine_partitions_with_leaders, bind_pair_length,
    Generator.make_partitions, mkParts_length _ _ hk hkn]

/-- C3: composing the enumerated partitions with leaders and then with
rounds yields exactly `S^R` testcases, where `S` is the number of
(leader, partition) scenarios and `R = number_of_rounds`, and this
total equals the closed-form forecast
`testcases_length = (stirling2(n_total, k) * f)^R`, computed over exact
(arbitrary-precision) integers. -/
theorem compose_rounds_spec (g : Generator) (hn : 1 ≤ g.number_of_nodes)
    (hk : 1 ≤ g.number_of_partitions)
    (hkn : g.number_of_partitions ≤ g.nodes.length)
    (hr : 1 ≤ g.number_of_rounds) :
    (g.combine_scenarios_with_rounds
        (g.combine_partitions_with_leaders g.make_partitions)).length =
      (g.combine_partitions_with_leaders g.make_partitions).length
        ^ g.number_of_rounds ∧
    ((g.combine_scenarios_with_rounds
        (g.combine_partitions_with_leaders g.make_partitions)).length : ℤ) =
      g.testcases_length := by
  have h1 : (g.combine_scenarios_with_rounds
      (g.combine_partitions_with_leaders g.make_partitions)).length =
      (g.combine_partitions_with_leaders g.make_partitions).length
        ^ g.number_of_rounds := productRepeat_length _ _
  refine ⟨h1, ?_⟩
  rw [h1, scenarios_length g hk hkn, Generator.testcases_length,
    pyS_eq_stirlingRec]
  push_cast
  ring

/-- C3 witness: the count identity instantiated on the tested
configuration `Generator(4, 2, 3)` (5 total nodes, 2 partitions,
3 rounds). -/
theorem compose_rounds_spec_witness :
    1 ≤ (Generator.mk 4 2 3 "./" 1 1).number_of_nodes ∧
    1 ≤ (Generator.mk 4 2 3 "./" 1 1).number_of_partitions ∧
    (Generator.mk 4 2 3 "./" 1 1).number_of_partitions ≤
      (Generator.mk 4 2 3 "./" 1 1).nodes.length ∧
    1 ≤ (Generator.mk 4 2 3 "./" 1 1).number_of_rounds ∧
    (((Generator.mk 4 2 3 "./" 1 1).combine_scenarios_with_rounds
        ((Generator.mk 4 2 3 "./" 1 1).combine_partitions_with_leaders
          (Generator.mk 4 2 3 "./" 1 1).make_partitions)).length =
      ((Generator.mk 4 2 3 "./" 1 1).combine_partitions_with_leaders
          (Generator.mk 4 2 3 "./" 1 1).make_partitions).length
        ^ (Generator.mk 4 2 3 "./" 1 1).number_of_rounds ∧
    (((Generator.mk 4 2 3 "./" 1 1).combine_scenarios_with_rounds
        ((Generator.mk 4 2 3 "./" 1 1).combine_partitions_with_leaders
          (Generator.mk 4 2 3 "./" 1 1).make_partitions)).length : ℤ) =
      (Generator.mk 4 2 3 "./" 1 1).testcases_length) :=
  ⟨by decide, by decide, by decide, by decide,
    compose_rounds_spec (Generator.mk 4 2 3 "./" 1 1) (by decide) (by decide)
      (by decide) (by decide)⟩

/-- C7: construction validation fails fast — any non-integer where an
integer is expected (or non-string folder path) is a `TypeError`;
non-positive node/partition/round counts or a machine index out of
range is a `ValueError`; a partition count exceeding
`number_of_nodes + f` is a `ValueError`; the same for `run` parameters
(`TypeError` for wrong types, `ValueError` for non-positive worker or
chunk counts), and a failed `run` parameter check aborts `run` before
any enumeration is produced. -/
theorem init_validation (nn np nr fp mi nm d w t : PyVal) (g : Generator) :
    (¬(nn.isInt && np.isInt && nr.isInt && fp.isStr && mi.isInt &&
        nm.isInt) = true →
      Generator.init nn np nr fp mi nm = Except.error PyErr.typeError) ∧
    ((nn.isInt && np.isInt && nr.isInt && fp.isStr && mi.isInt &&
        nm.isInt) = true →
      (nn.toInt ≤ 0 ∨ np.toInt ≤ 0 ∨ nr.toInt ≤ 0 ∨ mi.toInt ≤ 0 ∨
        nm.toInt < mi.toInt) →
      Generator.init nn np nr fp mi nm = Except.error PyErr.valueError) ∧
    ((nn.isInt && np.isInt && nr.isInt && fp.isStr && mi.isInt &&
        nm.isInt) = true →
      (0 < nn.toInt ∧ 0 < np.toInt ∧ 0 < nr.toInt ∧ 0 < mi.toInt ∧
        mi.toInt ≤ nm.toInt) →
      nn.toInt.toNat + (nn.toInt.toNat - 1) / 3 < np.toInt.toNat →
      Generator.init nn np nr fp mi nm = Except.error PyErr.valueError) ∧
    (¬(d.isBool && w.isInt && t.isInt) = true →
      Generator.run_check d w t = Except.error PyErr.typeError) ∧
    ((d.isBool && w.isInt && t.isInt) = true →
      (w.toInt ≤ 0 ∨ t.toInt ≤ 0) →
      Generator.run_check d w t = Except.error PyErr.valueError) ∧
    (∀ e, Generator.run_check d w t = Except.error e →
      g.runModel d w t = Except.error e) := by
  refine ⟨?_, ?_, ?_, ?_, ?_, ?_⟩
  · intro h
    unfold Generator.init
    rw [if_pos h]
  · intro h1 h2
    unfold Generator.init
    rw [if_neg (not_not_intro h1), if_pos (by omega)]
  · intro h1 h2 h3
    unfold Generator.init
    rw [if_neg (not_not_intro h1), if_neg (not_not_intro h2),
      if_pos (by simp only [Generator.nodes, List.length_range]; exact h3)]
  · intro h
    unfold Generator.run_check
    rw [if_pos h]
  · intro h1 h2
    unfold Generator.run_check
    rw [if_neg (not_not_intro h1), if_pos (by omega)]
  · intro e he
    unfold Generator.runModel
    rw [he]

/-- C7 witness: a string where an integer is expected is a `TypeError`;
a non-positive machine index, and a partition count exceeding
`number_of_nodes + f`, are `ValueError`s; `run` with a non-integer
worker count is a `TypeError`, with zero workers a `ValueError`, and a
failed check aborts `runModel`. -/
theorem init_validation_witness :
    Generator.init (PyVal.str "a") (PyVal.int 2) (PyVal.int 8)
        (PyVal.str "./") (PyVal.int 1) (PyVal.int 1) =
      Except.error PyErr.typeError ∧
    Generator.init (PyVal.int 4) (PyVal.int 2) (PyVal.int 8)
        (PyVal.str "./") (PyVal.int (-1)) (PyVal.int 1) =
      Except.error PyErr.valueError ∧
    Generator.init (PyVal.int 4) (PyVal.int 20) (PyVal.int 8)
        (PyVal.str "./") (PyVal.int 1) (PyVal.int 1) =
      Except.error PyErr.valueError ∧
    Generator.run_check (PyVal.bool true) (PyVal.str "a") (PyVal.int 5) =
      Except.error PyErr.typeError ∧
    Generator.run_check (PyVal.bool true) (PyVal.int 0) (PyVal.int 5) =
      Except.error PyErr.valueError ∧
    (Generator.mk 4 2 3 "./" 1 1).runModel (PyVal.bool true) (PyVal.int 0)
        (PyVal.int 5) =
      Except.error PyErr.valueError := by
  refine ⟨?_, ?_, ?_, ?_, ?_, ?_⟩
  · exact (init_validation (PyVal.str "a") (PyVal.int 2) (PyVal.int 8)
      (PyVal.str "./") (PyVal.int 1) (PyVal.int 1) (PyVal.none) (PyVal.none)
      (PyVal.none) (Generator.mk 4 2 3 "./" 1 1)).1 (by decide)
  · exact (init_validation (PyVal.int 4) (PyVal.int 2) (PyVal.int 8)
      (PyVal.str "./") (PyVal.int (-1)) (PyVal.int 1) (PyVal.none)
      (PyVal.none) (PyVal.none) (Generator.mk 4 2 3 "./" 1 1)).2.1
      (by decide) (by decide)
  · exact (init_validation (PyVal.int 4) (PyVal.int 20) (PyVal.int 8)
      (PyVal.str "./") (PyVal.int 1) (PyVal.int 1) (PyVal.none) (PyVal.none)
      (PyVal.none) (Generator.mk 4 2 3 "./" 1 1)).2.2.1
      (by decide) (by decide) (by decide)
  · exact (init_validation (PyVal.none) (PyVal.none) (PyVal.none)
      (PyVal.none) (PyVal.none) (PyVal.none) (PyVal.bool true)
      (PyVal.str "a") (PyVal.int 5) (Generator.mk 4 2 3 "./" 1 1)).2.2.2.1
      (by decide)
  · exact (init_validation (PyVal.none) (PyVal.none) (PyVal.none)
      (PyVal.none) (PyVal.none) (PyVal.none) (PyVal.bool true)
      (PyVal.int 0) (PyVal.int 5) (Generator.mk 4 2 3 "./" 1 1)).2.2.2.2.1
      (by decide) (by decide)
  · refine (init_validation (PyVal.none) (PyVal.none) (PyVal.none)
      (PyVal.none) (PyVal.none) (PyVal.none) (PyVal.bool true)
      (PyVal.int 0) (PyVal.int 5) (Generator.mk 4 2 3 "./" 1 1)).2.2.2.2.2
      PyErr.valueError ?_
    exact (init_validation (PyVal.none) (PyVal.none) (PyVal.none)
      (PyVal.none) (PyVal.none) (PyVal.none) (PyVal.bool true)
      (PyVal.int 0) (PyVal.int 5) (Generator.mk 4 2 3 "./" 1 1)).2.2.2.2.1
      (by decide) (by decide)

/-- C9: when `number_of_nodes ≤ 3` (so `f = 0`) and the partition count
fits, construction succeeds, the target-node list is empty, the
forecast `testcases_length` is `0`, and the composed pipeline yields
zero testcases — the generator silently produces empty output instead
of rejecting the configuration. -/
theorem small_nodes_empty (n k R : ℕ) (hn3 : n ≤ 3) (hn : 1 ≤ n)
    (hk : 1 ≤ k) (hkn : k ≤ n) (hR : 1 ≤ R) :
    Generator.init (PyVal.int n) (PyVal.int k) (PyVal.int R)
        (PyVal.str "./") (PyVal.int 1) (PyVal.int 1) =
      Except.ok (Generator.mk n k R "./" 1 1) ∧
    (Generator.mk n k R "./" 1 1).target_nodes = [] ∧
    (Generator.mk n k R "./" 1 1).testcases_length = 0 ∧
    ((Generator.mk n k R "./" 1 1).combine_scenarios_with_rounds
        ((Generator.mk n k R "./" 1 1).combine_partitions_with_leaders
          (Generator.mk n k R "./" 1 1).make_partitions)).length = 0 := by
  have hf : (Generator.mk n k R "./" 1 1).f = 0 := by
    show (n - 1) / 3 = 0
    exact Nat.div_eq_of_lt (by omega)
  have htarget : (Generator.mk n k R "./" 1 1).target_nodes = [] := by
    rw [Generator.target_nodes, hf]
    exact List.take_zero _
  refine ⟨?_, htarget, ?_, ?_⟩
  · unfold Generator.init
    have hb : ((PyVal.int (n : ℤ)).isInt && (PyVal.int (k : ℤ)).isInt &&
        (PyVal.int (R : ℤ)).isInt && (PyVal.str "./").isStr &&
        (PyVal.int 1).isInt && (PyVal.int 1).isInt) = true := rfl
    rw [if_neg (not_not_intro hb)]
    have hv : 0 < (PyVal.int (n : ℤ)).toInt ∧
        0 < (PyVal.int (k : ℤ)).toInt ∧ 0 < (PyVal.int (R : ℤ)).toInt ∧
        0 < (PyVal.int 1).toInt ∧
        (PyVal.int 1).toInt ≤ (PyVal.int 1).toInt := by
      simp only [PyVal.toInt]
      exact ⟨by exact_mod_cast hn, by exact_mod_cast hk,
        by exact_mod_cast hR, by decide, le_refl _⟩
    rw [if_neg (not_not_intro hv)]
    rw [if_neg (by
      simp only [PyVal.toInt, Int.toNat_natCast, Generator.nodes,
        List.length_range]
      omega)]
    rfl
  · rw [Generator.testcases_length, htarget]
    simp only [List.length_nil, Nat.cast_zero, mul_zero]
    have hR0 : R ≠ 0 := by omega
    exact zero_pow hR0
  · rw [Generator.combine_scenarios_with_rounds, productRepeat_length,
      Generator.combine_partitions_with_leaders, htarget]
    have hlen : ((Generator.mk n k R "./" 1 1).make_partitions.bind
        fun partition => ([] : List ℕ).map fun leader =>
          (leader, partition)).length = 0 := by
      rw [length_bind_const _ _ 0 (fun b _ => by simp)]
      ring
    rw [hlen]
    have hR0 : R ≠ 0 := by omega
    exact zero_pow hR0

/-- C9 witness: the degenerate configuration `Generator(3, 2, 2)`. -/
theorem small_nodes_empty_witness :
    Generator.init (PyVal.int 3) (PyVal.int 2) (PyVal.int 2)
        (PyVal.str "./") (PyVal.int 1) (PyVal.int 1) =
      Except.ok (Generator.mk 3 2 2 "./" 1 1) ∧
    (Generator.mk 3 2 2 "./" 1 1).target_nodes = [] ∧
    (Generator.mk 3 2 2 "./" 1 1).testcases_length = 0 ∧
    ((Generator.mk 3 2 2 "./" 1 1).combine_scenarios_with_rounds
        ((Generator.mk 3 2 2 "./" 1 1).combine_partitions_with_leaders
          (Generator.mk 3 2 2 "./" 1 1).make_partitions)).length = 0 :=
  small_nodes_empty 3 2 2 (by decide) (by decide) (by decide) (by decide)
    (by decide)

lemma modBlock_length (x : ℕ) : ∀ j (p : List (List ℕ)),
    (modBlock x j p).length = p.length := by
  intro j p
  induction p generalizing j with
  | nil => cases j <;> rfl
  | cons b bs ih =>
    cases j with
    | zero => rfl
    | succ j => simp [modBlock, ih j]

lemma modBlock_getElem? (x : ℕ) : ∀ j (p : List (List ℕ)) (i : ℕ),
    (modBlock x j p)[i]? =
      if i = j then (p[i]?).map (fun b => b ++ [x]) else p[i]? := by
  intro j p
  induction p generalizing j with
  | nil =>
    intro i
    cases j <;> simp [modBlock]
  | cons b bs ih =>
    intro i
    cases j with
    | zero =>
      cases i with
      | zero => simp [modBlock]
      | succ i => simp [modBlock]
    | succ j =>
      cases i with
      | zero => simp [modBlock]
      | succ i =>
        have hstep : modBlock x (j + 1) (b :: bs) = b :: modBlock x j bs :=
          rfl
        rw [hstep]
        simp only [List.getElem?_cons_succ, ih j i]
        by_cases hij : i = j
        · rw [if_pos hij, if_pos (by omega)]
        · rw [if_neg hij, if_neg (by omega)]

lemma modBlock_getElem (x j : ℕ) (p : List (List ℕ)) (i : ℕ)
    (hi : i < p.length) (hi2 : i < (modBlock x j p).length) :
    (modBlock x j p)[i] = if i = j then p[i] ++ [x] else p[i] := by
  have h1 : (modBlock x j p)[i]? = some ((modBlock x j p)[i]) :=
    List.getElem?_eq_getElem hi2
  rw [modBlock_getElem? x j p i, List.getElem?_eq_getElem hi] at h1
  by_cases hij : i = j
  · rw [if_pos hij] at h1 ⊢
    simpa using h1.symm
  · rw [if_neg hij] at h1 ⊢
    simpa using h1.symm

lemma mem_setOfSets {p : List (List ℕ)} {S : Finset ℕ} :
    S ∈ setOfSets p ↔ ∃ b ∈ p, b.toFinset = S := by
  simp [setOfSets]

lemma setOfSets_append_singleton (q : List (List ℕ)) (y : ℕ) :
    setOfSets (q ++ [[y]]) = insert ({y} : Finset ℕ) (setOfSets q) := by
  unfold setOfSets
  rw [List.map_append, List.toFinset_append]
  simp only [List.map_cons, List.map_nil, List.toFinset_cons,
    List.toFinset_nil, insert_emptyc_eq]
  rw [Finset.union_comm, ← Finset.insert_eq]

lemma mkParts_valid : ∀ n k, 1 ≤ k → k ≤ n →
    ∀ p ∈ mkParts n k, isValidPartition n k p := by
  intro n
  induction n with
  | zero => intro k hk hkn; omega
  | succ n ih =>
    intro k hk hkn p hp
    simp only [mkParts] at hp
    by_cases h1 : k = 1
    · subst h1
      rw [if_pos rfl, List.mem_singleton] at hp
      subst hp
      refine ⟨rfl, ?_, List.pairwise_singleton _ _, ?_⟩
      · intro b hb
        rw [List.mem_singleton] at hb
        subst hb
        simp [List.range_eq_nil]
      · intro x
        simp [List.mem_range]
    · rw [if_neg h1] at hp
      by_cases h2 : k = n + 1
      · subst h2
        rw [if_pos rfl, List.mem_singleton] at hp
        subst hp
        refine ⟨by simp, ?_, ?_, ?_⟩
        · intro b hb
          simp only [List.mem_map, List.mem_range] at hb
          obtain ⟨y, _, rfl⟩ := hb
          simp
        · rw [List.pairwise_map]
          refine List.Pairwise.imp ?_ (List.nodup_range (n + 1))
          intro a b hab x hxa hxb
          rw [List.mem_singleton] at hxa hxb
          exact hab (hxa ▸ hxb ▸ rfl)
        · intro x
          constructor
          · rintro ⟨b, hb, hxb⟩
            simp only [List.mem_map, List.mem_range] at hb
            obtain ⟨y, hy, rfl⟩ := hb
            rw [List.mem_singleton] at hxb
            omega
          · intro hx
            exact ⟨[x], by simp [List.mem_range]; omega, by simp⟩
      · rw [if_neg h2, List.mem_append] at hp
        have hkn' : k ≤ n := by omega
        rcases hp with hpa | hpb
        · rw [List.mem_map] at hpa
          obtain ⟨q, hq, rfl⟩ := hpa
          obtain ⟨hlen, hne, hpw, hcov⟩ := ih (k - 1) (by omega) (by omega) q hq
          refine ⟨?_, ?_, ?_, ?_⟩
          · rw [List.length_append, hlen]
            simp only [List.length_cons, List.length_nil]
            omega
          · intro b hb
            rw [List.mem_append] at hb
            rcases hb with hb | hb
            · exact hne b hb
            · rw [List.mem_singleton] at hb
              subst hb
              simp
          · rw [List.pairwise_append]
            refine ⟨hpw, List.pairwise_singleton _ _, ?_⟩
            intro b hb c hc x hxb
            rw [List.mem_singleton] at hc
            subst hc
            have hlt : x < n := (hcov x).mp ⟨b, hb, hxb⟩
            rw [List.mem_singleton]
            omega
          · intro x
            simp only [List.mem_append, List.mem_singleton]
            constructor
            · rintro ⟨b, hb | hb, hxb⟩
              · have := (hcov x).mp ⟨b, hb, hxb⟩
                omega
              · subst hb
                rw [List.mem_singleton] at hxb
                omega
            · intro hx
              rcases Nat.lt_or_ge x n with hxn | hxn
              · obtain ⟨b, hb, hxb⟩ := (hcov x).mpr hxn
                exact ⟨b, Or.inl hb, hxb⟩
              · have hxeq : x = n := by omega
                subst hxeq
                exact ⟨[x], Or.inr rfl, by simp⟩
        · simp only [List.mem_bind, List.mem_map, List.mem_range] at hpb
          obtain ⟨j, hj, q, hq, rfl⟩ := hpb
          obtain ⟨hlen, hne, hpw, hcov⟩ := ih k (by omega) hkn' q hq
          have hjq : j < q.length := by omega
          have hmlen : (modBlock n j q).length = q.length :=
            modBlock_length n j q
          refine ⟨by rw [hmlen, hlen], ?_, ?_, ?_⟩
          · intro b hb
            rw [List.mem_iff_getElem] at hb
            obtain ⟨i, hi, heq⟩ := hb
            rw [modBlock_getElem n j q i (by omega) hi] at heq
            by_cases hij : i = j
            · rw [if_pos hij] at heq
              rw [← heq]
              simp
            · rw [if_neg hij] at heq
              rw [← heq]
              exact hne _ (List.getElem_mem (by omega))
          · rw [List.pairwise_iff_getElem]
            intro i i2 hi hi2 hlt12
            rw [hmlen] at hi hi2
            rw [modBlock_getElem n j q i hi (by omega),
              modBlock_getElem n j q i2 hi2 (by omega)]
            have hqpw := List.pairwise_iff_getElem.mp hpw
            have hdisj : ∀ x, x ∈ q[i] → x ∉ q[i2] := hqpw i i2 hi hi2 hlt12
            have hlt_i : ∀ x, x ∈ q[i] → x < n := fun x hx =>
              (hcov x).mp ⟨q[i], List.getElem_mem hi, hx⟩
            have hlt_i2 : ∀ x, x ∈ q[i2] → x < n := fun x hx =>
              (hcov x).mp ⟨q[i2], List.getElem_mem hi2, hx⟩
            by_cases hij : i = j
            · rw [if_pos hij, if_neg (by omega)]
              intro x hx hx2
              rw [List.mem_append] at hx
              rcases hx with hx | hx
              · exact hdisj x hx hx2
              · rw [List.mem_singleton] at hx
                subst hx
                exact absurd (hlt_i2 _ hx2) (by omega)
            · rw [if_neg hij]
              by_cases hij2 : i2 = j
              · rw [if_pos hij2]
                intro x hx hx2
                rw [List.mem_append] at hx2
                rcases hx2 with hx2 | hx2
                · exact hdisj x hx hx2
                · rw [List.mem_singleton] at hx2
                  subst hx2
                  exact absurd (hlt_i _ hx) (by omega)
              · rw [if_neg hij2]
                exact hdisj
          · intro x
            constructor
            · rintro ⟨b, hb, hxb⟩
              rw [List.mem_iff_getElem] at hb
              obtain ⟨i, hi, heq⟩ := hb
              rw [modBlock_getElem n j q i (by omega) hi] at heq
              by_cases hij : i = j
              · rw [if_pos hij] at heq
                rw [← heq, List.mem_append] at hxb
                rcases hxb with hx | hx
                · have := (hcov x).mp
                    ⟨q[i], List.getElem_mem (by omega), hx⟩
                  omega
                · rw [List.mem_singleton] at hx
                  omega
              · rw [if_neg hij] at heq
                rw [← heq] at hxb
                have := (hcov x).mp
                  ⟨q[i], List.getElem_mem (by omega), hxb⟩
                omega
            · intro hx
              rcases Nat.lt_or_ge x n with hxn | hxn
              · obtain ⟨b, hb, hxb⟩ := (hcov x).mpr hxn
                rw [List.mem_iff_getElem] at hb
                obtain ⟨i, hi, heq⟩ := hb
                have hi2 : i < (modBlock n j q).length := by omega
                refine ⟨(modBlock n j q)[i], List.getElem_mem hi2, ?_⟩
                rw [modBlock_getElem n j q i (by omega) hi2]
                by_cases hij : i = j
                · rw [if_pos hij, heq, List.mem_append]
                  exact Or.inl hxb
                · rw [if_neg hij, heq]
                  exact hxb
              · have hxeq : x = n := by omega
                have hj2 : j < (modBlock n j q).length := by omega
                refine ⟨(modBlock n j q)[j], List.getElem_mem hj2, ?_⟩
                rw [modBlock_getElem n j q j hjq hj2, if_pos rfl,
                  List.mem_append]
                right
                simp [hxeq]

lemma toFinset_append_singleton (b : List ℕ) (y : ℕ) :
    (b ++ [y]).toFinset = insert y b.toFinset := by
  rw [List.toFinset_append]
  simp only [List.toFinset_cons, List.toFinset_nil, insert_emptyc_eq]
  rw [Finset.union_comm, ← Finset.insert_eq]

lemma valid_not_mem_toFinset {n k : ℕ} {q : List (List ℕ)}
    (h : isValidPartition n k q) {b : List ℕ} (hb : b ∈ q) :
    n ∉ b.toFinset := by
  intro hmem
  have := (h.2.2.2 n).mp ⟨b, hb, List.mem_toFinset.mp hmem⟩
  omega

lemma singleton_n_not_mem_setOfSets {n k : ℕ} {q : List (List ℕ)}
    (h : isValidPartition n k q) : ({n} : Finset ℕ) ∉ setOfSets q := by
  intro hmem
  rw [mem_setOfSets] at hmem
  obtain ⟨b, hb, hbeq⟩ := hmem
  exact valid_not_mem_toFinset h hb (by rw [hbeq]; simp)

lemma mem_setOfSets_modBlock {n j : ℕ} {q : List (List ℕ)}
    (hjq : j < q.length) {S : Finset ℕ} :
    S ∈ setOfSets (modBlock n j q) ↔
      (∃ i, ∃ hi : i < q.length, i ≠ j ∧ (q.get ⟨i, hi⟩).toFinset = S) ∨
        insert n (q.get ⟨j, hjq⟩).toFinset = S := by
  rw [mem_setOfSets]
  constructor
  · rintro ⟨b, hb, rfl⟩
    rw [List.mem_iff_getElem] at hb
    obtain ⟨i, hi, heq⟩ := hb
    have hiq : i < q.length := by
      have := modBlock_length n j q
      omega
    rw [modBlock_getElem n j q i hiq hi] at heq
    by_cases hij : i = j
    · right
      rw [if_pos hij] at heq
      rw [← heq, toFinset_append_singleton]
      subst hij
      rfl
    · left
      rw [if_neg hij] at heq
      exact ⟨i, hiq, hij, by rw [← heq]; rfl⟩
  · intro hS
    rcases hS with ⟨i, hi, hij, rfl⟩ | rfl
    · have hi2 : i < (modBlock n j q).length := by
        have := modBlock_length n j q
        omega
      refine ⟨(modBlock n j q)[i], List.getElem_mem hi2, ?_⟩
      rw [modBlock_getElem n j q i hi hi2, if_neg hij]
      rfl
    · have hj2 : j < (modBlock n j q).length := by
        have := modBlock_length n j q
        omega
      refine ⟨(modBlock n j q)[j], List.getElem_mem hj2, ?_⟩
      rw [modBlock_getElem n j q j hjq hj2, if_pos rfl,
        toFinset_append_singleton]
      rfl

lemma image_erase_setOfSets_modBlock {n k j : ℕ} {q : List (List ℕ)}
    (h : isValidPartition n k q) (hjq : j < q.length) :
    Finset.image (fun B => B.erase n) (setOfSets (modBlock n j q)) =
      setOfSets q := by
  ext S
  simp only [Finset.mem_image]
  constructor
  · rintro ⟨B, hB, rfl⟩
    rw [mem_setOfSets_modBlock hjq] at hB
    rcases hB with ⟨i, hi, hij, rfl⟩ | rfl
    · rw [Finset.erase_eq_of_not_mem
        (valid_not_mem_toFinset h (q.get_mem i hi))]
      exact mem_setOfSets.mpr ⟨q.get ⟨i, hi⟩, q.get_mem i hi, rfl⟩
    · rw [Finset.erase_insert
        (valid_not_mem_toFinset h (q.get_mem j hjq))]
      exact mem_setOfSets.mpr ⟨q.get ⟨j, hjq⟩, q.get_mem j hjq, rfl⟩
  · intro hS
    rw [mem_setOfSets] at hS
    obtain ⟨b, hb, rfl⟩ := hS
    rw [List.mem_iff_getElem] at hb
    obtain ⟨i, hi, rfl⟩ := hb
    by_cases hij : i = j
    · refine ⟨insert n (q.get ⟨j, hjq⟩).toFinset,
        (mem_setOfSets_modBlock hjq).mpr (Or.inr rfl), ?_⟩
      rw [Finset.erase_insert
        (valid_not_mem_toFinset h (q.get_mem j hjq))]
      subst hij
      rfl
    · refine ⟨(q.get ⟨i, hi⟩).toFinset,
        (mem_setOfSets_modBlock hjq).mpr (Or.inl ⟨i, hi, hij, rfl⟩), ?_⟩
      rw [Finset.erase_eq_of_not_mem
        (valid_not_mem_toFinset h (q.get_mem i hi))]
      rfl

lemma n_mem_setOfSets_modBlock {n k j : ℕ} {q : List (List ℕ)}
    (h : isValidPartition n k q) (hjq : j < q.length) {S : Finset ℕ}
    (hS : S ∈ setOfSets (modBlock n j q)) (hn : n ∈ S) :
    S = insert n (q.get ⟨j, hjq⟩).toFinset := by
  rw [mem_setOfSets_modBlock hjq] at hS
  rcases hS with ⟨i, hi, _, rfl⟩ | rfl
  · exact absurd hn (valid_not_mem_toFinset h (q.get_mem i hi))
  · rfl

lemma singleton_n_not_mem_setOfSets_modBlock {n k j : ℕ}
    {q : List (List ℕ)} (h : isValidPartition n k q) (hjq : j < q.length) :
    ({n} : Finset ℕ) ∉ setOfSets (modBlock n j q) := by
  intro hmem
  rw [mem_setOfSets_modBlock hjq] at hmem
  rcases hmem with ⟨i, hi, _, heq⟩ | heq
  · obtain ⟨y, hy⟩ := List.exists_mem_of_ne_nil _
      (h.2.1 _ (q.get_mem i hi))
    have hyn : y ∈ ({n} : Finset ℕ) := heq ▸ List.mem_toFinset.mpr hy
    rw [Finset.mem_singleton] at hyn
    have := (h.2.2.2 y).mp ⟨q.get ⟨i, hi⟩, q.get_mem i hi, hy⟩
    omega
  · obtain ⟨y, hy⟩ := List.exists_mem_of_ne_nil _
      (h.2.1 _ (q.get_mem j hjq))
    have hyn : y ∈ ({n} : Finset ℕ) :=
      heq ▸ Finset.mem_insert_of_mem (List.mem_toFinset.mpr hy)
    rw [Finset.mem_singleton] at hyn
    have := (h.2.2.2 y).mp ⟨q.get ⟨j, hjq⟩, q.get_mem j hjq, hy⟩
    omega

lemma setOfSets_modBlock_inj {n k : ℕ} {q q2 : List (List ℕ)}
    (h : isValidPartition n k q) (h2 : isValidPartition n k q2)
    {j j2 : ℕ} (hj : j < q.length) (hj2 : j2 < q2.length)
    (heq : setOfSets (modBlock n j q) = setOfSets (modBlock n j2 q2)) :
    setOfSets q = setOfSets q2 ∧
      (q.get ⟨j, hj⟩).toFinset = (q2.get ⟨j2, hj2⟩).toFinset := by
  constructor
  · rw [← image_erase_setOfSets_modBlock h hj,
      ← image_erase_setOfSets_modBlock h2 hj2, heq]
  · have hmem : insert n (q.get ⟨j, hj⟩).toFinset ∈
        setOfSets (modBlock n j2 q2) := by
      rw [← heq]
      exact (mem_setOfSets_modBlock hj).mpr (Or.inr rfl)
    have huniq := n_mem_setOfSets_modBlock h2 hj2 hmem
      (Finset.mem_insert_self n _)
    have hn1 := valid_not_mem_toFinset h (q.get_mem j hj)
    have hn2 := valid_not_mem_toFinset h2 (q2.get_mem j2 hj2)
    calc (q.get ⟨j, hj⟩).toFinset
        = (insert n (q.get ⟨j, hj⟩).toFinset).erase n :=
          (Finset.erase_insert hn1).symm
      _ = (insert n (q2.get ⟨j2, hj2⟩).toFinset).erase n := by rw [huniq]
      _ = (q2.get ⟨j2, hj2⟩).toFinset := Finset.erase_insert hn2

lemma valid_blocks_toFinset_ne {n k : ℕ} {q : List (List ℕ)}
    (h : isValidPartition n k q) {j j2 : ℕ} (hj : j < q.length)
    (hj2 : j2 < q.length) (hne : j ≠ j2) :
    (q.get ⟨j, hj⟩).toFinset ≠ (q.get ⟨j2, hj2⟩).toFinset := by
  intro heq
  obtain ⟨y, hy⟩ := List.exists_mem_of_ne_nil _ (h.2.1 _ (q.get_mem j hj))
  have hy2 : y ∈ q.get ⟨j2, hj2⟩ := by
    rw [← List.mem_toFinset, ← heq, List.mem_toFinset]
    exact hy
  have hqpw := List.pairwise_iff_getElem.mp h.2.2.1
  rcases Nat.lt_or_ge j j2 with hlt | hge
  · exact hqpw j j2 hj hj2 hlt y hy hy2
  · exact hqpw j2 j hj2 hj (by omega) y hy2 hy

lemma mkParts_nodup : ∀ n k, 1 ≤ k → k ≤ n →
    ((mkParts n k).map setOfSets).Nodup := by
  intro n
  induction n with
  | zero => intro k hk hkn; omega
  | succ n ih =>
    intro k hk hkn
    simp only [mkParts]
    by_cases h1 : k = 1
    · subst h1
      rw [if_pos rfl]
      simp
    · rw [if_neg h1]
      by_cases h2 : k = n + 1
      · subst h2
        rw [if_pos rfl]
        simp
      · rw [if_neg h2]
        have hkn' : k ≤ n := by omega
        have hk1 : 1 ≤ k - 1 := by omega
        have hkn1 : k - 1 ≤ n := by omega
        have ihA := ih (k - 1) hk1 hkn1
        have ihB := ih k (by omega) hkn'
        have hvalidA := mkParts_valid n (k - 1) hk1 hkn1
        have hvalidB := mkParts_valid n k (by omega) hkn'
        rw [List.map_append, List.nodup_append]
        refine ⟨?_, ?_, ?_⟩
        · rw [List.map_map]
          have hAnodup : (mkParts n (k - 1)).Nodup :=
            List.Nodup.of_map setOfSets ihA
          have hinjA := List.inj_on_of_nodup_map ihA
          apply List.Nodup.map_on ?_ hAnodup
          intro q hq q2 hq2 heq
          have heq2 : setOfSets (q ++ [[n]]) = setOfSets (q2 ++ [[n]]) := heq
          rw [setOfSets_append_singleton, setOfSets_append_singleton] at heq2
          have hn1 := singleton_n_not_mem_setOfSets (hvalidA q hq)
          have hn2 := singleton_n_not_mem_setOfSets (hvalidA q2 hq2)
          refine hinjA hq hq2 ?_
          calc setOfSets q
              = (insert {n} (setOfSets q)).erase {n} :=
                (Finset.erase_insert hn1).symm
            _ = (insert {n} (setOfSets q2)).erase {n} := by rw [heq2]
            _ = setOfSets q2 := Finset.erase_insert hn2
        · rw [List.map_bind, List.nodup_bind]
          have hBnodup : (mkParts n k).Nodup :=
            List.Nodup.of_map setOfSets ihB
          have hinj := List.inj_on_of_nodup_map ihB
          constructor
          · intro j hj
            rw [List.mem_range] at hj
            rw [List.map_map]
            apply List.Nodup.map_on ?_ hBnodup
            intro q hq q2 hq2 heq
            have hvq := hvalidB q hq
            have hvq2 := hvalidB q2 hq2
            have hjq : j < q.length := by rw [hvq.1]; omega
            have hjq2 : j < q2.length := by rw [hvq2.1]; omega
            exact hinj hq hq2
              (setOfSets_modBlock_inj hvq hvq2 hjq hjq2 heq).1
          · rw [List.pairwise_iff_getElem]
            intro a b2 ha hb hab
            rw [List.length_range] at ha hb
            rw [List.getElem_range, List.getElem_range]
            intro S hSa hSb
            simp only [List.map_map, List.mem_map] at hSa hSb
            obtain ⟨q, hq, rfl⟩ := hSa
            obtain ⟨q2, hq2, heq⟩ := hSb
            have hvq := hvalidB q hq
            have hvq2 := hvalidB q2 hq2
            have haq : a < q.length := by rw [hvq.1]; omega
            have hbq2 : b2 < q2.length := by rw [hvq2.1]; omega
            obtain ⟨hsets, hblocks⟩ :=
              setOfSets_modBlock_inj hvq2 hvq hbq2 haq heq
            have hqq : q2 = q := hinj hq2 hq hsets
            subst hqq
            exact valid_blocks_toFinset_ne hvq hbq2 haq (by omega) hblocks
        · intro S hSa hSb
          simp only [List.map_map, List.mem_map] at hSa
          obtain ⟨q, hq, rfl⟩ := hSa
          rw [List.map_bind] at hSb
          simp only [List.mem_bind, List.mem_range, List.map_map,
            List.mem_map] at hSb
          obtain ⟨j, hj, q2, hq2, heq⟩ := hSb
          have hvq2 := hvalidB q2 hq2
          have hjq2 : j < q2.length := by rw [hvq2.1]; omega
          have hmem : ({n} : Finset ℕ) ∈ setOfSets (modBlock n j q2) := by
            have heq2 : setOfSets (modBlock n j q2) =
                setOfSets (q ++ [[n]]) := heq
            rw [heq2, setOfSets_append_singleton]
            exact Finset.mem_insert_self _ _
          exact singleton_n_not_mem_setOfSets_modBlock hvq2 hjq2 hmem

/-- The enumeration reproduces `test_make_partitions` from the repo's
test suite: `Generator(4, 2, 8)` (5 total nodes, 2 partitions) yields
the 15 partitions in exactly this order. -/
lemma mkParts_matches_repo_test :
    mkParts 5 2 = [
      [[0, 1, 2, 3], [4]],
      [[0, 1, 2, 4], [3]],
      [[0, 1, 3, 4], [2]],
      [[0, 2, 3, 4], [1]],
      [[0, 3, 4], [1, 2]],
      [[0, 1, 4], [2, 3]],
      [[0, 2, 4], [1, 3]],
      [[0, 4], [1, 2, 3]],
      [[0, 1, 2], [3, 4]],
      [[0, 1, 3], [2, 4]],
      [[0, 2, 3], [1, 4]],
      [[0, 3], [1, 2, 4]],
      [[0, 1], [2, 3, 4]],
      [[0, 2], [1, 3, 4]],
      [[0], [1, 2, 3, 4]]] := by
  decide

/-- C1: `make_partitions`' enumeration of the partitions of
`{0, ..., n-1}` into `k` blocks (for `n ≥ k ≥ 1`) returns exactly
`stirling2(n, k)` partitions — both against the standard recurrence and
against the code's closed-form `S` — the returned partitions are
pairwise distinct when compared as sets of sets, and each returned
partition has exactly `k` non-empty blocks that are pairwise disjoint
with union exactly `{0, ..., n-1}`. -/
theorem make_partitions_spec (n k : ℕ) (hk : 1 ≤ k) (hkn : k ≤ n) :
    (mkParts n k).length = stirlingRec n k ∧
    ((mkParts n k).length : ℤ) = pyS n k ∧
    ((mkParts n k).map setOfSets).Nodup ∧
    ∀ p ∈ mkParts n k, isValidPartition n k p := by
  refine ⟨mkParts_length n k hk hkn, ?_, mkParts_nodup n k hk hkn,
    mkParts_valid n k hk hkn⟩
  rw [mkParts_length n k hk hkn, pyS_eq_stirlingRec]

/-- C1 witness: the enumeration contract instantiated at `n = 3`,
`k = 2`. -/
theorem make_partitions_spec_witness :
    1 ≤ 2 ∧ 2 ≤ 3 ∧
    ((mkParts 3 2).length = stirlingRec 3 2 ∧
      ((mkParts 3 2).length : ℤ) = pyS 3 2 ∧
      ((mkParts 3 2).map setOfSets).Nodup ∧
      ∀ p ∈ mkParts 3 2, isValidPartition 3 2 p) :=
  ⟨by decide, by decide, make_partitions_spec 3 2 (by decide) (by decide)⟩
